import Mathlib

/-!
Verification development for a document-store layer over an object-storage
bucket.  The embedding models the record-mapping and validation core: the
record codec, the key scheme, the CRUD model operations, the schema gate and
the model registry.  Strings are modelled as lists of characters; the storage
collaborator is modelled as an association list from keys to stored bytes,
and mutating operations additionally report the list of write/delete effects
they issued to the collaborator.
-/

set_option autoImplicit false

/-- Strings of the embedded program, modelled as lists of characters. -/
abbrev Str := List Char

/-- The reserved field name `id`. -/
def idK : Str := ['i', 'd']

/-- The reserved field name `createdAt`. -/
def cAtK : Str := ['c', 'r', 'e', 'a', 't', 'e', 'd', 'A', 't']

/-- The reserved field name `updatedAt`. -/
def uAtK : Str := ['u', 'p', 'd', 'a', 't', 'e', 'd', 'A', 't']

/-- The record-file suffix `.json` used by the key scheme. -/
def dotJson : Str := ['.', 'j', 's', 'o', 'n']

/-- The suffix `_schema` the registry appends to cache keys of schema models. -/
def schemaSfx : Str := ['_', 's', 'c', 'h', 'e', 'm', 'a']

section Assoc

variable {α : Type}

/-- First-match lookup in an association list, as JavaScript property access
and `Map.get` behave on string keys. -/
def getAssoc : List (Str × α) → Str → Option α
  | [], _ => none
  | (k', v) :: rest, k => if k' = k then some v else getAssoc rest k

/-- Replace the first entry with the given key, keeping its position, or
append a fresh entry at the end: the behaviour of JavaScript property
assignment and `Map.set`. -/
def setAssoc : List (Str × α) → Str → α → List (Str × α)
  | [], k, v => [(k, v)]
  | (k', v') :: rest, k, v =>
      if k' = k then (k, v) :: rest else (k', v') :: setAssoc rest k v

@[simp] theorem getAssoc_nil (k : Str) : getAssoc ([] : List (Str × α)) k = none := rfl

@[simp] theorem getAssoc_cons (k' k : Str) (v : α) (rest : List (Str × α)) :
    getAssoc ((k', v) :: rest) k = if k' = k then some v else getAssoc rest k := rfl

@[simp] theorem setAssoc_nil (k : Str) (v : α) :
    setAssoc ([] : List (Str × α)) k v = [(k, v)] := rfl

@[simp] theorem setAssoc_cons (k' k : Str) (v' v : α) (rest : List (Str × α)) :
    setAssoc ((k', v') :: rest) k v =
      if k' = k then (k, v) :: rest else (k', v') :: setAssoc rest k v := rfl

theorem getAssoc_setAssoc_self (l : List (Str × α)) (k : Str) (v : α) :
    getAssoc (setAssoc l k v) k = some v := by
  induction l with
  | nil => simp
  | cons p rest ih =>
      obtain ⟨k', v'⟩ := p
      by_cases h : k' = k <;> simp [h, ih]

theorem getAssoc_setAssoc_ne (l : List (Str × α)) (k k' : Str) (v : α) (h : k ≠ k') :
    getAssoc (setAssoc l k v) k' = getAssoc l k' := by
  induction l with
  | nil => simp [h]
  | cons p rest ih =>
      obtain ⟨k₀, v₀⟩ := p
      by_cases h₀ : k₀ = k
      · subst h₀; simp [h]
      · simp [h₀, ih]

theorem setAssoc_of_getAssoc_eq (l : List (Str × α)) (k : Str) (v : α)
    (h : getAssoc l k = some v) : setAssoc l k v = l := by
  induction l with
  | nil => simp at h
  | cons p rest ih =>
      obtain ⟨k₀, v₀⟩ := p
      by_cases h₀ : k₀ = k
      · subst h₀
        simp at h
        simp [h]
      · simp [h₀] at h ⊢
        exact ih h

theorem setAssoc_setAssoc_self (l : List (Str × α)) (k : Str) (v v' : α) :
    setAssoc (setAssoc l k v) k v' = setAssoc l k v' := by
  induction l with
  | nil => simp
  | cons p rest ih =>
      obtain ⟨k₀, v₀⟩ := p
      by_cases h₀ : k₀ = k <;> simp [h₀, ih]

/-- Keys of an association list. -/
def assocKeys (l : List (Str × α)) : List Str := l.map Prod.fst

@[simp] theorem assocKeys_nil : assocKeys ([] : List (Str × α)) = [] := rfl

@[simp] theorem assocKeys_cons (p : Str × α) (rest : List (Str × α)) :
    assocKeys (p :: rest) = p.1 :: assocKeys rest := rfl

theorem setAssoc_comm (l : List (Str × α)) (k k' : Str) (v v' : α) (h : k ≠ k')
    (hk : k ∈ assocKeys l) :
    setAssoc (setAssoc l k v) k' v' = setAssoc (setAssoc l k' v') k v := by
  induction l with
  | nil => simp at hk
  | cons p rest ih =>
      obtain ⟨k₀, v₀⟩ := p
      by_cases h₀ : k₀ = k
      · subst h₀; simp [h, Ne.symm h]
      · rw [assocKeys_cons, List.mem_cons] at hk
        rcases hk with hk | hk
        · exact absurd hk.symm h₀
        · by_cases h₁ : k₀ = k'
          · subst h₁
            simp [h₀, Ne.symm h, ih hk]
          · simp [h₀, h₁, ih hk]

theorem getAssoc_eq_none_of_not_mem (l : List (Str × α)) (k : Str)
    (h : k ∉ assocKeys l) : getAssoc l k = none := by
  induction l with
  | nil => simp
  | cons p rest ih =>
      obtain ⟨k₀, v₀⟩ := p
      rw [assocKeys_cons, List.mem_cons] at h
      push_neg at h
      simp [h.1, ih h.2, Ne.symm h.1]

end Assoc

/-! ### Record values and the record codec -/

/-- A runtime value held in a record field: strings, numbers, booleans,
`null`, `undefined`, and timestamp (`Date`) objects. -/
inductive JSVal where
  | s (v : Str)
  | i (v : Int)
  | b (v : Bool)
  | null
  | undefVal
  | date (t : Nat)
  deriving DecidableEq

/-- A JSON value as stored: same atoms, but no timestamps and no
`undefined` — serialization renders timestamps as strings and drops
`undefined` fields. -/
inductive Json where
  | s (v : Str)
  | i (v : Int)
  | b (v : Bool)
  | null
  deriving DecidableEq

/-- The bytes of a stored object: either a valid JSON object (modelled by its
parsed field list) or bytes that fail to parse as JSON. -/
inductive Bytes where
  | obj (fields : List (Str × Json))
  | corrupt (raw : Str)
  deriving DecidableEq

/-- A record: an ordered mapping from field names to values, as a JavaScript
object is. -/
abbrev Rec := List (Str × JSVal)

/-- Modelled from the spec: the JavaScript runtime's rendering of a timestamp
as an ISO-8601 string (`Date.prototype.toISOString`) is platform code outside
this repository; it is modelled as an arbitrary injective, never-empty
rendering of the instant. -/
def dateToISO (t : Nat) : Str := List.replicate (t + 1) 'T'

/-- Modelled from the spec: the JavaScript runtime's parsing of a timestamp
string (the `Date` constructor) is platform code outside this repository; it
is modelled as the left inverse of `dateToISO`. -/
def parseDate (v : Str) : Nat := v.length - 1

@[simp] theorem parseDate_dateToISO (t : Nat) : parseDate (dateToISO t) = t := by
  simp [parseDate, dateToISO]

theorem dateToISO_ne_nil (t : Nat) : dateToISO t ≠ [] := by
  simp [dateToISO]

/-- Serialization of one field value, as `JSON.stringify` treats it:
timestamps become their ISO string, `undefined` fields are dropped. -/
def encodeVal : JSVal → Option Json
  | .s v => some (.s v)
  | .i v => some (.i v)
  | .b v => some (.b v)
  | .null => some .null
  | .undefVal => none
  | .date t => some (.s (dateToISO t))

/-- A parsed JSON atom read back as a runtime value. -/
def valOfJson : Json → JSVal
  | .s v => .s v
  | .i v => .i v
  | .b v => .b v
  | .null => .null

/-- `JSON.stringify` of a record: each field serialized, `undefined` fields
dropped. -/
def encode (r : Rec) : Bytes :=
  .obj (r.filterMap fun p => (encodeVal p.2).map fun j => (p.1, j))

/-- Field access defaulting to `undefined`, as JavaScript property access. -/
def getFieldD (r : Rec) (k : Str) : JSVal := (getAssoc r k).getD .undefVal

/-- The date-revival step of decoding applied to one reserved field: a
non-empty string found there is converted back to a timestamp value. -/
def reviveField (r : Rec) (k : Str) : Rec :=
  match getAssoc r k with
  | some (.s v) => if v ≠ [] then setAssoc r k (.date (parseDate v)) else r
  | _ => r

/-- The date-revival step of decoding: `createdAt` then `updatedAt`. -/
def revive (r : Rec) : Rec := reviveField (reviveField r cAtK) uAtK

/-! ### Errors -/

/-- The error taxonomy of the system, exactly the four codes the
implementation declares. -/
inductive ErrCode where
  | RECORD_NOT_FOUND
  | RECORD_ALREADY_EXISTS
  | STORAGE_ERROR
  | INVALID_DATA
  deriving DecidableEq

/-- A validation issue: a field path together with a message. -/
abbrev Issue := List Str × Str

/-- An error surfaced to the caller: its code and, for schema-validation
failures, the structured list of issues carried in the details.  Error
message text is elided. -/
structure BucketError where
  code : ErrCode
  details : List Issue := []
  deriving DecidableEq

/-- An error with a code and no details. -/
def mkErr (c : ErrCode) : BucketError := ⟨c, []⟩

instance {ε α : Type} [DecidableEq ε] [DecidableEq α] : DecidableEq (Except ε α) :=
  fun x y =>
    match x, y with
    | .ok a, .ok b =>
        if h : a = b then isTrue (by rw [h])
        else isFalse (fun hc => h (Except.ok.inj hc))
    | .error a, .error b =>
        if h : a = b then isTrue (by rw [h])
        else isFalse (fun hc => h (Except.error.inj hc))
    | .ok _, .error _ => isFalse (fun hc => Except.noConfusion hc)
    | .error _, .ok _ => isFalse (fun hc => Except.noConfusion hc)

/-! ### The storage collaborator -/

/-- The storage collaborator's state: keys mapped to stored bytes, listed in
insertion order. -/
abbrev Storage := List (Str × Bytes)

/-- A write or delete call issued to the storage collaborator. -/
inductive Effect where
  | put (key : Str) (body : Bytes)
  | del (key : Str)
  deriving DecidableEq

/-- `download(key)`: the stored bytes, or absent. -/
def Storage.download (st : Storage) (k : Str) : Option Bytes := getAssoc st k

/-- `upload(key, body)`: overwrite or append. -/
def Storage.upload (st : Storage) (k : Str) (b : Bytes) : Storage := setAssoc st k b

/-- `delete(key)`: remove the key. -/
def Storage.eraseKey (st : Storage) (k : Str) : Storage :=
  st.filter fun e => decide (e.1 ≠ k)

/-- `list(pfx)`: all stored keys having the given first characters. -/
def Storage.listKeys (st : Storage) (pfx : Str) : List Str :=
  (st.filter fun e => pfx.isPrefixOf e.1).map Prod.fst

/-! ### First-occurrence substring replacement

JavaScript's `String.replace(pat, rep)` with a string pattern replaces only
the first occurrence; `findSub` locates it. -/

/-- Split the haystack around the first occurrence of `pat`, if any. -/
def findSub (pat : Str) : Str → Option (Str × Str)
  | [] => if pat.isPrefixOf ([] : Str) then some ([], []) else none
  | c :: rest =>
      if pat.isPrefixOf (c :: rest) then some ([], (c :: rest).drop pat.length)
      else (findSub pat rest).map fun p => (c :: p.1, p.2)

/-- `String.replace` with string arguments: replace the first occurrence of
`pat` by `rep`, or return the string unchanged. -/
def replaceFirst (s pat rep : Str) : Str :=
  match findSub pat s with
  | none => s
  | some p => p.1 ++ rep ++ p.2

/-! ### The key scheme and the model operations -/

/-- The key scheme: `modelName/id.json`. -/
def genKey (m id : Str) : Str := m ++ ['/'] ++ id ++ dotJson

/-- Decoding the bytes of a stored object: bytes that fail to parse as JSON
raise an error the caller wraps as `STORAGE_ERROR`; a parsed object has its
reserved timestamp fields revived. -/
def parseRecord (b : Bytes) : Except BucketError Rec :=
  match b with
  | .corrupt _ => .error (mkErr .STORAGE_ERROR)
  | .obj fields => .ok (revive (fields.map fun q => (q.1, valOfJson q.2)))

/-- Whether a downloaded byte string is falsy, as the guard
`if (!jsonData) return null` tests it: the empty string is falsy; a
serialized JSON object is never the empty string. -/
def Bytes.isFalsy : Bytes → Bool
  | .obj _ => false
  | .corrupt raw => raw.isEmpty

/-- Read a record by id: absent keys — and present but falsy (empty) byte
bodies, per the falsy-bytes guard — give `none`; other stored bytes are
decoded. -/
def getRecord (m : Str) (st : Storage) (id : Str) : Except BucketError (Option Rec) :=
  match Storage.download st (genKey m id) with
  | none => .ok none
  | some b => if b.isFalsy then .ok none else (parseRecord b).map some

/-- The result of a mutating model operation: the returned value or error,
the storage collaborator's state afterwards, and the write/delete effects
issued to it. -/
abbrev OpResult (α : Type) := Except BucketError α × Storage × List Effect

/-- `create(data)`: require a non-empty string id, fail with
`RECORD_ALREADY_EXISTS` when the id is taken, otherwise stamp both
timestamps, encode and upload. -/
def create (m : Str) (now : Nat) (st : Storage) (data : Rec) : OpResult Rec :=
  match getAssoc data idK with
  | some (.s i) =>
      if i = [] then (.error (mkErr .INVALID_DATA), st, [])
      else
        match getRecord m st i with
        | .error e => (.error e, st, [])
        | .ok (some _) => (.error (mkErr .RECORD_ALREADY_EXISTS), st, [])
        | .ok none =>
            let record := setAssoc (setAssoc data cAtK (.date now)) uAtK (.date now)
            let key := genKey m i
            let body := encode record
            (.ok record, Storage.upload st key body, [.put key body])
  | _ => (.error (mkErr .INVALID_DATA), st, [])

/-- `findOne(id)`: require a non-empty id; absence is an explicit `none`. -/
def findOne (m : Str) (st : Storage) (id : Str) : Except BucketError (Option Rec) :=
  if id = [] then .error (mkErr .INVALID_DATA) else getRecord m st id

/-- Shallow merge of caller fields on top of an existing record, as the
object spread `\x7b...existing, ...data\x7d` behaves. -/
def mergeRecs (ex data : Rec) : Rec :=
  data.foldl (fun acc kv => setAssoc acc kv.1 kv.2) ex

/-- `update(id, data)`: require a non-empty id and an existing record, merge
the caller fields on top, force `id` and `createdAt` back, stamp
`updatedAt`, and overwrite at the same key. -/
def update (m : Str) (now : Nat) (st : Storage) (id : Str) (data : Rec) : OpResult Rec :=
  if id = [] then (.error (mkErr .INVALID_DATA), st, [])
  else
    match getRecord m st id with
    | .error e => (.error e, st, [])
    | .ok none => (.error (mkErr .RECORD_NOT_FOUND), st, [])
    | .ok (some ex) =>
        let merged :=
          setAssoc (setAssoc (setAssoc (mergeRecs ex data) idK (.s id))
            cAtK (getFieldD ex cAtK)) uAtK (.date now)
        let key := genKey m id
        let body := encode merged
        (.ok merged, Storage.upload st key body, [.put key body])

/-- `delete(id)`: require a non-empty id and an existing record, then issue
one delete to the storage collaborator. -/
def delete (m : Str) (st : Storage) (id : Str) : OpResult Unit :=
  if id = [] then (.error (mkErr .INVALID_DATA), st, [])
  else
    match getRecord m st id with
    | .error e => (.error e, st, [])
    | .ok none => (.error (mkErr .RECORD_NOT_FOUND), st, [])
    | .ok (some _) =>
        let key := genKey m id
        (.ok (), Storage.eraseKey st key, [.del key])

/-- The options of `findMany`: an exact-match filter, a limit and an offset,
all optional. -/
structure FindManyOptions where
  whereClause : Option (List (Str × JSVal)) := none
  limit : Option Nat := none
  offset : Option Nat := none

/-- Strict equality of runtime values, as `===` compares a freshly decoded
record field with a caller-supplied value: atoms compare by value, timestamp
objects by reference — and a decoded field is always a fresh object, so two
`Date`s never compare equal here. -/
def jsEq : JSVal → JSVal → Bool
  | .s a, .s b => a = b
  | .i a, .i b => a = b
  | .b a, .b b => a = b
  | .null, .null => true
  | .undefVal, .undefVal => true
  | _, _ => false

/-- The predicate a `where` clause imposes: every listed field strictly
equals the given value. -/
def matchesWhere (w : List (Str × JSVal)) (r : Rec) : Bool :=
  w.all fun kv => jsEq (getFieldD r kv.1) kv.2

/-- The read loop of `findMany`: for each listed key, recover the id by
removing the first occurrence of the prefix and the first occurrence of
`.json`, read the record, and silently skip ids whose read misses. -/
def loadLoop (m : Str) (st : Storage) (pfx : Str) : List Str → Except BucketError (List Rec)
  | [] => .ok []
  | key :: rest => do
      let id := replaceFirst (replaceFirst key pfx []) dotJson []
      let rcd ← getRecord m st id
      let more ← loadLoop m st pfx rest
      match rcd with
      | some r => .ok (r :: more)
      | none => .ok more

/-- `findMany(options?)`: list the keys under the model's prefix, keep the
`.json` ones, load each record, then filter, offset and limit. -/
def findMany (m : Str) (st : Storage) (opts : FindManyOptions) :
    Except BucketError (List Rec) := do
  let pfx := m ++ ['/']
  let keys := Storage.listKeys st pfx
  let jsonKeys := keys.filter fun k => dotJson.isSuffixOf k
  let records ← loadLoop m st pfx jsonKeys
  let filtered :=
    match opts.whereClause with
    | some w => records.filter fun r => matchesWhere w r
    | none => records
  let afterOffset :=
    match opts.offset with
    | some o => filtered.drop o
    | none => filtered
  let finalRecords :=
    match opts.limit with
    | some l => afterOffset.take l
    | none => afterOffset
  return finalRecords

/-! ### The schema gate -/

/-- A schema: validating a record either yields the validated/normalized
data or a list of issues, each a field path with a message.  This models the
external validator library's `parse`, which collects every violated field. -/
structure Schema where
  validate : Rec → Except (List Issue) Rec

/-- A schema definition, wrapping the schema a model is constructed with. -/
structure SchemaDefinition where
  schema : Schema

/-- `createWithValidation(data)`: validate first — a failure surfaces as
`INVALID_DATA` carrying the issues and performs no storage call — and on
success delegate to `create` with the validated data. -/
def createWithValidation (sch : Schema) (m : Str) (now : Nat) (st : Storage)
    (data : Rec) : OpResult Rec :=
  match sch.validate data with
  | .error issues => (.error ⟨.INVALID_DATA, issues⟩, st, [])
  | .ok vdata => create m now st vdata

/-! ### The registry -/

/-- A cached model instance: a plain model or a schema model holding its
schema. -/
inductive ModelInst where
  | plain (modelName : Str)
  | schemaInst (modelName : Str) (sch : Schema)

/-- The registry: one map from cache keys to constructed model instances. -/
structure Registry where
  models : List (Str × ModelInst)

/-- The empty registry of a freshly constructed client. -/
def Registry.empty : Registry := ⟨[]⟩

/-- `model(name)`: return the cached instance under `name`, or construct,
cache and return a plain model. -/
def Registry.model (R : Registry) (n : Str) : ModelInst × Registry :=
  match getAssoc R.models n with
  | some inst => (inst, R)
  | none =>
      let inst := ModelInst.plain n
      (inst, ⟨setAssoc R.models n inst⟩)

/-- `schemaModel(name, schemaDefinition)`: return the cached instance under
`name ++ "_schema"`, or construct, cache and return a schema model holding
the definition's schema. -/
def Registry.schemaModel (R : Registry) (n : Str) (sd : SchemaDefinition) :
    ModelInst × Registry :=
  let schemaKey := n ++ schemaSfx
  match getAssoc R.models schemaKey with
  | some inst => (inst, R)
  | none =>
      let inst := ModelInst.schemaInst n sd.schema
      (inst, ⟨setAssoc R.models schemaKey inst⟩)

/-- `getSchema()`: the schema a schema model holds; a plain model has none. -/
def getSchema : ModelInst → Option Schema
  | .plain _ => none
  | .schemaInst _ sch => some sch

/-! ### Well-formed records and the codec round trip -/

/-- Whether a value is a timestamp object. -/
def isDate : JSVal → Bool
  | .date _ => true
  | _ => false

/-- A well-formed record, as the system itself stores them: no duplicated
field names, no `undefined` fields, timestamp values only at the two
reserved timestamp fields, and both reserved timestamp fields present and
holding timestamps. -/
def WellFormed (r : Rec) : Prop :=
  (assocKeys r).Nodup ∧
  (∀ p ∈ r, p.2 ≠ JSVal.undefVal) ∧
  (∀ p ∈ r, isDate p.2 = true → p.1 = cAtK ∨ p.1 = uAtK) ∧
  isDate (getFieldD r cAtK) = true ∧
  isDate (getFieldD r uAtK) = true

instance (r : Rec) : Decidable (WellFormed r) := by
  unfold WellFormed; infer_instance



/-- How serialization followed by parsing transforms one field value:
timestamps come back as their rendered string, everything else survives. -/
def rnd : JSVal → JSVal
  | .s v => .s v
  | .i v => .i v
  | .b v => .b v
  | .null => .null
  | .undefVal => .undefVal
  | .date t => .s (dateToISO t)

@[simp] theorem rnd_date (t : Nat) : rnd (JSVal.date t) = .s (dateToISO t) := rfl

theorem rnd_eq_self (v : JSVal) (h : isDate v = false) : rnd v = v := by
  cases v <;> first | rfl | (simp [isDate] at h)

theorem decode_encode_fields (r : Rec) (h : ∀ p ∈ r, p.2 ≠ JSVal.undefVal) :
    (r.filterMap fun p => (encodeVal p.2).map fun j => (p.1, j)).map
        (fun q => (q.1, valOfJson q.2)) =
      r.map fun p => (p.1, rnd p.2) := by
  induction r with
  | nil => rfl
  | cons p rest ih =>
      obtain ⟨k, v⟩ := p
      have hp : v ≠ JSVal.undefVal := h ⟨k, v⟩ (List.mem_cons_self _ _)
      have hrest : ∀ q ∈ rest, q.2 ≠ JSVal.undefVal :=
        fun q hq => h q (List.mem_cons_of_mem _ hq)
      cases v
      case undefVal => exact absurd rfl hp
      all_goals
        simp only [List.filterMap_cons, encodeVal, Option.map_some', List.map_cons,
          valOfJson, rnd]
        exact congrArg (List.cons _) (ih hrest)

theorem map_rnd_of_no_dates (r : Rec) (h : ∀ p ∈ r, isDate p.2 = false) :
    (r.map fun p => (p.1, rnd p.2)) = r := by
  induction r with
  | nil => rfl
  | cons p rest ih =>
      obtain ⟨k, v⟩ := p
      have hp : isDate v = false := h ⟨k, v⟩ (List.mem_cons_self _ _)
      have hrest : ∀ q ∈ rest, isDate q.2 = false :=
        fun q hq => h q (List.mem_cons_of_mem _ hq)
      simp [rnd_eq_self v hp, ih hrest]

theorem map_rnd_single (r : Rec) (a : Str) (t : Nat)
    (honly : ∀ p ∈ r, isDate p.2 = true → p.1 = a)
    (hget : getAssoc r a = some (JSVal.date t))
    (hnd : (assocKeys r).Nodup) :
    (r.map fun p => (p.1, rnd p.2)) = setAssoc r a (JSVal.s (dateToISO t)) := by
  induction r with
  | nil => simp at hget
  | cons p rest ih =>
      obtain ⟨k₀, v₀⟩ := p
      rw [assocKeys_cons] at hnd
      have hnd' : (assocKeys rest).Nodup := (List.nodup_cons.mp hnd).2
      have hk₀ : k₀ ∉ assocKeys rest := (List.nodup_cons.mp hnd).1
      by_cases h₀ : k₀ = a
      · subst h₀
        simp only [getAssoc_cons, if_pos rfl] at hget
        injection hget with hget
        subst hget
        have hnone : ∀ q ∈ rest, isDate q.2 = false := by
          intro q hq
          cases hdd : isDate q.2
          · rfl
          · have hq1 : q.1 = k₀ := honly q (List.mem_cons_of_mem _ hq) hdd
            have hm : q.1 ∈ assocKeys rest := List.mem_map_of_mem Prod.fst hq
            rw [hq1] at hm
            exact absurd hm hk₀
        simp [map_rnd_of_no_dates rest hnone]
      · have hget' : getAssoc rest a = some (JSVal.date t) := by
          simpa [h₀] using hget
        have honly' : ∀ q ∈ rest, isDate q.2 = true → q.1 = a :=
          fun q hq => honly q (List.mem_cons_of_mem _ hq)
        have hd : isDate v₀ = false := by
          cases hdd : isDate v₀
          · rfl
          · exact absurd (honly ⟨k₀, v₀⟩ (List.mem_cons_self _ _) hdd) h₀
        simp [h₀, rnd_eq_self v₀ hd, ih honly' hget' hnd']

theorem map_rnd_two (r : Rec) (t1 t2 : Nat)
    (honly : ∀ p ∈ r, isDate p.2 = true → p.1 = cAtK ∨ p.1 = uAtK)
    (h1 : getAssoc r cAtK = some (.date t1))
    (h2 : getAssoc r uAtK = some (.date t2))
    (hnd : (assocKeys r).Nodup) :
    (r.map fun p => (p.1, rnd p.2)) =
      setAssoc (setAssoc r cAtK (.s (dateToISO t1))) uAtK (.s (dateToISO t2)) := by
  have hcu : cAtK ≠ uAtK := by decide
  induction r with
  | nil => simp at h1
  | cons p rest ih =>
      obtain ⟨k₀, v₀⟩ := p
      rw [assocKeys_cons] at hnd
      have hnd' : (assocKeys rest).Nodup := (List.nodup_cons.mp hnd).2
      have hk₀ : k₀ ∉ assocKeys rest := (List.nodup_cons.mp hnd).1
      by_cases hc : k₀ = cAtK
      · subst hc
        simp only [getAssoc_cons, if_pos rfl] at h1
        injection h1 with h1
        subst h1
        have h2' : getAssoc rest uAtK = some (.date t2) := by
          simpa [hcu] using h2
        have honly' : ∀ q ∈ rest, isDate q.2 = true → q.1 = uAtK := by
          intro q hq hdd
          rcases honly q (List.mem_cons_of_mem _ hq) hdd with h | h
          · have hm : q.1 ∈ assocKeys rest := List.mem_map_of_mem Prod.fst hq
            rw [h] at hm
            exact absurd hm hk₀
          · exact h
        simp [hcu, map_rnd_single rest uAtK t2 honly' h2' hnd']
      · by_cases hu : k₀ = uAtK
        · subst hu
          simp only [getAssoc_cons, if_pos rfl] at h2
          injection h2 with h2
          subst h2
          have h1' : getAssoc rest cAtK = some (.date t1) := by
            simpa [Ne.symm hcu] using h1
          have honly' : ∀ q ∈ rest, isDate q.2 = true → q.1 = cAtK := by
            intro q hq hdd
            rcases honly q (List.mem_cons_of_mem _ hq) hdd with h | h
            · exact h
            · have hm : q.1 ∈ assocKeys rest := List.mem_map_of_mem Prod.fst hq
              rw [h] at hm
              exact absurd hm hk₀
          simp [Ne.symm hcu, map_rnd_single rest cAtK t1 honly' h1' hnd']
        · have h1' : getAssoc rest cAtK = some (.date t1) := by simpa [hc] using h1
          have h2' : getAssoc rest uAtK = some (.date t2) := by simpa [hu] using h2
          have honly' : ∀ q ∈ rest, isDate q.2 = true → q.1 = cAtK ∨ q.1 = uAtK :=
            fun q hq => honly q (List.mem_cons_of_mem _ hq)
          have hd : isDate v₀ = false := by
            cases hdd : isDate v₀
            · rfl
            · rcases honly ⟨k₀, v₀⟩ (List.mem_cons_self _ _) hdd with h | h
              · exact absurd h hc
              · exact absurd h hu
          simp [hc, hu, rnd_eq_self v₀ hd, ih honly' h1' h2' hnd']

theorem mem_assocKeys_of_getAssoc {α : Type} (l : List (Str × α)) (k : Str) (v : α)
    (h : getAssoc l k = some v) : k ∈ assocKeys l := by
  by_contra hcon
  rw [getAssoc_eq_none_of_not_mem l k hcon] at h
  exact Option.noConfusion h

theorem mem_assocKeys_setAssoc_of_mem {α : Type} (l : List (Str × α)) (k k' : Str)
    (v : α) (h : k' ∈ assocKeys l) : k' ∈ assocKeys (setAssoc l k v) := by
  induction l with
  | nil => simp at h
  | cons p rest ih =>
      obtain ⟨k₀, v₀⟩ := p
      rw [assocKeys_cons, List.mem_cons] at h
      by_cases h₀ : k₀ = k
      · subst h₀
        rcases h with h | h
        · subst h; simp
        · simp [List.mem_cons_of_mem, h]
      · rcases h with h | h
        · subst h; simp [h₀]
        · simp [h₀, List.mem_cons_of_mem, ih h]

theorem reviveField_of_get (r : Rec) (k : Str) (v : Str)
    (h : getAssoc r k = some (.s v)) (hv : v ≠ []) :
    reviveField r k = setAssoc r k (.date (parseDate v)) := by
  simp [reviveField, h, hv]

/-- The reserved timestamp field of a well-formed record, as a timestamp. -/
theorem wf_get_date (r : Rec) (k : Str) (h : isDate (getFieldD r k) = true) :
    ∃ t, getAssoc r k = some (JSVal.date t) := by
  cases hg : getAssoc r k with
  | none => rw [getFieldD, hg] at h; simp [isDate] at h
  | some v =>
      cases v <;> rw [getFieldD, hg] at h <;> simp [isDate] at h
      case date t => exact ⟨t, rfl⟩

/-- The codec round trip on well-formed records: parsing the serialized
bytes restores the record exactly, the two reserved timestamp fields
surviving as equal instants and every other field passing through
unchanged. -/
theorem parseRecord_encode_wf (r : Rec) (h : WellFormed r) :
    parseRecord (encode r) = .ok r := by
  obtain ⟨hnd, hundef, honly, hc, hu⟩ := h
  obtain ⟨t1, h1⟩ := wf_get_date r cAtK hc
  obtain ⟨t2, h2⟩ := wf_get_date r uAtK hu
  have hcu : cAtK ≠ uAtK := by decide
  have hdec : parseRecord (encode r) =
      .ok (revive ((r.filterMap fun p => (encodeVal p.2).map fun j => (p.1, j)).map
        fun q => (q.1, valOfJson q.2))) := rfl
  rw [hdec, decode_encode_fields r hundef, map_rnd_two r t1 t2 honly h1 h2 hnd]
  set s1 : JSVal := .s (dateToISO t1) with hs1
  set s2 : JSVal := .s (dateToISO t2) with hs2
  set X : Rec := setAssoc r cAtK s1 with hX
  set Y : Rec := setAssoc X uAtK s2 with hY
  have hYc : getAssoc Y cAtK = some s1 := by
    rw [hY, getAssoc_setAssoc_ne X uAtK cAtK s2 (Ne.symm hcu), hX,
      getAssoc_setAssoc_self]
  have hrev1 : reviveField Y cAtK = setAssoc Y cAtK (.date t1) := by
    rw [reviveField_of_get Y cAtK (dateToISO t1) hYc (dateToISO_ne_nil t1),
      parseDate_dateToISO]
  set Z : Rec := setAssoc Y cAtK (.date t1) with hZ
  have hZu : getAssoc Z uAtK = some s2 := by
    rw [hZ, getAssoc_setAssoc_ne Y cAtK uAtK _ hcu, hY, getAssoc_setAssoc_self]
  have hrev2 : reviveField Z uAtK = setAssoc Z uAtK (.date t2) := by
    rw [reviveField_of_get Z uAtK (dateToISO t2) hZu (dateToISO_ne_nil t2),
      parseDate_dateToISO]
  have hfinal : setAssoc Z uAtK (.date t2) = r := by
    have humem : uAtK ∈ assocKeys X :=
      mem_assocKeys_setAssoc_of_mem r cAtK uAtK s1
        (mem_assocKeys_of_getAssoc r uAtK _ h2)
    rw [hZ, hY, setAssoc_comm X uAtK cAtK s2 (.date t1) (Ne.symm hcu) humem, hX,
      setAssoc_setAssoc_self, setAssoc_setAssoc_self,
      setAssoc_of_getAssoc_eq r cAtK _ h1, setAssoc_of_getAssoc_eq r uAtK _ h2]
  rw [revive, hrev1, hrev2, hfinal]

/-! ### Merge and storage lemmas -/

theorem mergeRecs_nil (ex : Rec) : mergeRecs ex [] = ex := rfl

theorem mergeRecs_cons (ex : Rec) (kv : Str × JSVal) (d : Rec) :
    mergeRecs ex (kv :: d) = mergeRecs (setAssoc ex kv.1 kv.2) d := rfl

theorem getAssoc_mergeRecs_not_mem (d : Rec) : ∀ (ex : Rec) (k : Str),
    k ∉ assocKeys d → getAssoc (mergeRecs ex d) k = getAssoc ex k := by
  induction d with
  | nil => intro ex k _; rfl
  | cons kv d' ih =>
      intro ex k h
      rw [assocKeys_cons, List.mem_cons] at h
      push_neg at h
      rw [mergeRecs_cons, ih (setAssoc ex kv.1 kv.2) k h.2,
        getAssoc_setAssoc_ne ex kv.1 k kv.2 (Ne.symm h.1)]

theorem getAssoc_mergeRecs_mem (d : Rec) : ∀ (ex : Rec) (k : Str) (v : JSVal),
    (assocKeys d).Nodup → getAssoc d k = some v →
    getAssoc (mergeRecs ex d) k = some v := by
  induction d with
  | nil => intro ex k v _ h; simp at h
  | cons kv d' ih =>
      intro ex k v hnd h
      obtain ⟨k₀, v₀⟩ := kv
      rw [assocKeys_cons] at hnd
      have hnd' : (assocKeys d').Nodup := (List.nodup_cons.mp hnd).2
      have hk₀ : k₀ ∉ assocKeys d' := (List.nodup_cons.mp hnd).1
      by_cases h₀ : k₀ = k
      · subst h₀
        simp only [getAssoc_cons, if_pos rfl] at h
        injection h with h
        subst h
        rw [mergeRecs_cons, getAssoc_mergeRecs_not_mem d' _ k₀ hk₀,
          getAssoc_setAssoc_self]
      · simp only [getAssoc_cons, if_neg h₀] at h
        rw [mergeRecs_cons]
        exact ih _ k v hnd' h

theorem download_upload_self (st : Storage) (k : Str) (b : Bytes) :
    Storage.download (Storage.upload st k b) k = some b :=
  getAssoc_setAssoc_self st k b

/-! ### Locating the first occurrence of a pattern -/

theorem isPrefixOf_append_self (l r : Str) : l.isPrefixOf (l ++ r) = true :=
  List.isPrefixOf_iff_prefix.mpr (List.prefix_append l r)

theorem findSub_append_self (pat rest : Str) (h : pat ≠ []) :
    findSub pat (pat ++ rest) = some ([], rest) := by
  match pat, h with
  | q :: qt, _ =>
      show findSub (q :: qt) (q :: (qt ++ rest)) = some ([], rest)
      rw [findSub]
      rw [show (q :: (qt ++ rest)) = (q :: qt) ++ rest from rfl]
      rw [if_pos (isPrefixOf_append_self (q :: qt) rest)]
      rw [List.drop_left]

theorem replaceFirst_append_self (pfx rest : Str) (h : pfx ≠ []) :
    replaceFirst (pfx ++ rest) pfx [] = rest := by
  rw [replaceFirst, findSub_append_self pfx rest h]
  rfl

theorem prefix_of_append_prefix (p l r : Str) (hlen : p.length ≤ l.length)
    (h : p <+: l ++ r) : p <+: l := by
  have hp : p = (l ++ r).take p.length := List.prefix_iff_eq_take.mp h
  rw [List.take_append_eq_append_take, Nat.sub_eq_zero_of_le hlen, List.take_zero,
    List.append_nil] at hp
  rw [hp]
  exact List.take_prefix _ _

theorem findSub_dotJson_boundary (l : Str) (h : ¬ dotJson <:+: l) :
    findSub dotJson (l ++ dotJson) = some (l, []) := by
  induction l with
  | nil =>
      have h0 := findSub_append_self dotJson [] (by decide)
      rw [List.append_nil] at h0
      rw [List.nil_append, h0]
  | cons c l' ih =>
      have hinf' : ¬ dotJson <:+: l' := by
        intro hcon
        exact h (hcon.trans (List.suffix_cons c l').isInfix)
      cases hpre : dotJson.isPrefixOf (c :: l' ++ dotJson) with
      | true =>
          exfalso
          have hpfx : dotJson <+: (c :: l' ++ dotJson) :=
            List.isPrefixOf_iff_prefix.mp hpre
          match l', hinf', hpfx with
          | [], _, hpfx =>
              obtain ⟨t, ht⟩ := hpfx
              simp [dotJson] at ht
          | [a], _, hpfx =>
              obtain ⟨t, ht⟩ := hpfx
              simp [dotJson] at ht
          | [a, b], _, hpfx =>
              obtain ⟨t, ht⟩ := hpfx
              simp [dotJson] at ht
          | [a, b, d], _, hpfx =>
              obtain ⟨t, ht⟩ := hpfx
              simp [dotJson] at ht
          | a :: b :: d :: e :: l'', hinf', hpfx =>
              have hlen : dotJson.length ≤ (c :: a :: b :: d :: e :: l'').length := by
                simp [dotJson]
              have hpl : dotJson <+: (c :: a :: b :: d :: e :: l'') :=
                prefix_of_append_prefix dotJson _ dotJson hlen
                  (by simpa using hpfx)
              exact h hpl.isInfix
      | false =>
          rw [List.cons_append] at hpre
          show findSub dotJson (c :: (l' ++ dotJson)) = some (c :: l', [])
          rw [findSub, if_neg (fun hc => by rw [hpre] at hc; exact Bool.noConfusion hc),
            ih hinf']
          rfl

theorem replaceFirst_dotJson_boundary (l : Str) (h : ¬ dotJson <:+: l) :
    replaceFirst (l ++ dotJson) dotJson [] = l := by
  rw [replaceFirst, findSub_dotJson_boundary l h]
  simp

/-! ### Listing and loading a model's records -/

theorem genKey_eq_append (m id : Str) :
    genKey m id = (m ++ ['/']) ++ (id ++ dotJson) := by
  simp [genKey, List.append_assoc]

theorem genKey_inj (m a b : Str) (h : genKey m a = genKey m b) : a = b := by
  rw [genKey_eq_append, genKey_eq_append] at h
  have h1 := List.append_cancel_left h
  exact List.append_cancel_right h1

theorem download_entries (m : Str) (entries : List (Str × Rec))
    (hnd : (entries.map Prod.fst).Nodup) :
    ∀ id r, (id, r) ∈ entries →
      getAssoc (entries.map fun e => (genKey m e.1, encode e.2)) (genKey m id) =
        some (encode r) := by
  induction entries with
  | nil => intro id r hmem; simp at hmem
  | cons e rest ih =>
      intro id r hmem
      obtain ⟨id₀, r₀⟩ := e
      rw [List.map_cons] at hnd
      have hnd' : (rest.map Prod.fst).Nodup := (List.nodup_cons.mp hnd).2
      have hid₀ : id₀ ∉ rest.map Prod.fst := (List.nodup_cons.mp hnd).1
      rcases List.mem_cons.mp hmem with heq | hmem'
      · injection heq with hmem1 hmem2
        subst hmem1; subst hmem2
        simp
      · have hne : id ≠ id₀ := by
          intro hcon
          apply hid₀
          rw [← hcon]
          exact List.mem_map_of_mem Prod.fst hmem'
        have hkne : genKey m id₀ ≠ genKey m id :=
          fun hcon => hne (genKey_inj m id₀ id hcon).symm
        simp only [List.map_cons, getAssoc_cons, if_neg hkne]
        exact ih hnd' id r hmem'

theorem listKeys_entries (m : Str) (entries : List (Str × Rec)) :
    Storage.listKeys (entries.map fun e => (genKey m e.1, encode e.2)) (m ++ ['/']) =
      entries.map fun e => genKey m e.1 := by
  rw [Storage.listKeys]
  have hall : ∀ p ∈ entries.map fun e => (genKey m e.1, encode e.2),
      (m ++ ['/']).isPrefixOf p.1 = true := by
    intro p hp
    rcases List.mem_map.mp hp with ⟨e, _, rfl⟩
    rw [genKey_eq_append]
    exact isPrefixOf_append_self _ _
  rw [List.filter_eq_self.mpr hall, List.map_map]
  rfl

theorem jsonKeys_entries (m : Str) (entries : List (Str × Rec)) :
    ((entries.map fun e => genKey m e.1).filter fun k => dotJson.isSuffixOf k) =
      entries.map fun e => genKey m e.1 := by
  apply List.filter_eq_self.mpr
  intro k hk
  rcases List.mem_map.mp hk with ⟨e, _, rfl⟩
  exact List.isSuffixOf_iff_suffix.mpr (List.suffix_append _ _)

theorem loadLoop_entries (m : Str) (st : Storage) (sub : List (Str × Rec))
    (hnj : ∀ e ∈ sub, ¬ dotJson <:+: e.1)
    (hg : ∀ e ∈ sub, getRecord m st e.1 = .ok (some e.2)) :
    loadLoop m st (m ++ ['/']) (sub.map fun e => genKey m e.1) =
      .ok (sub.map Prod.snd) := by
  induction sub with
  | nil => rfl
  | cons e rest ih =>
      have hkey : replaceFirst (replaceFirst (genKey m e.1) (m ++ ['/']) [])
          dotJson [] = e.1 := by
        rw [genKey_eq_append, replaceFirst_append_self _ _ (by simp),
          replaceFirst_dotJson_boundary _ (hnj e (List.mem_cons_self _ _))]
      have hih := ih (fun q hq => hnj q (List.mem_cons_of_mem _ hq))
        (fun q hq => hg q (List.mem_cons_of_mem _ hq))
      simp only [List.map_cons, loadLoop, hkey, hg e (List.mem_cons_self _ _), hih]
      rfl

/-! ### Claims -/

@[simp] theorem isFalsy_encode (r : Rec) : (encode r).isFalsy = false := rfl

theorem getRecord_upload_encode (m : Str) (st : Storage) (id : Str) (r : Rec) :
    getRecord m (Storage.upload st (genKey m id) (encode r)) id =
      (parseRecord (encode r)).map some := by
  rw [getRecord, download_upload_self]
  rfl

/-- C1: after a `create` with id `X` succeeds, a second `create` with id `X`
fails with `RECORD_ALREADY_EXISTS` regardless of its payload, leaves the
storage collaborator's state unchanged and issues no write effect — there is
no implicit upsert. -/
theorem create_second_fails_already_exists (m X : Str) (now now2 : Nat)
    (st : Storage) (d1 d2 : Rec) {r1 : Rec} {st1 : Storage} {effs : List Effect}
    (hX1 : getAssoc d1 idK = some (JSVal.s X))
    (h1 : create m now st d1 = (.ok r1, st1, effs))
    (hX2 : getAssoc d2 idK = some (JSVal.s X)) :
    create m now2 st1 d2 = (.error (mkErr .RECORD_ALREADY_EXISTS), st1, []) := by
  simp only [create, hX1] at h1
  by_cases hXe : X = []
  · rw [if_pos hXe] at h1
    simp at h1
  · rw [if_neg hXe] at h1
    cases hg : getRecord m st X with
    | error e => rw [hg] at h1; simp at h1
    | ok o =>
        cases o with
        | some old => rw [hg] at h1; simp at h1
        | none =>
            rw [hg] at h1
            rw [Prod.mk.injEq, Prod.mk.injEq] at h1
            obtain ⟨hr, hst, heff⟩ := h1
            simp only [create, hX2]
            rw [if_neg hXe, ← hst]
            obtain ⟨r', hr'⟩ : ∃ r',
                parseRecord (encode (setAssoc (setAssoc d1 cAtK (.date now))
                  uAtK (.date now))) = .ok r' := ⟨_, rfl⟩
            rw [getRecord_upload_encode, hr']
            rfl

def c1d1 : Rec := [(idK, .s ['u', '1']), (['n'], .s ['A'])]

def c1d2 : Rec := [(idK, .s ['u', '1']), (['z'], .i 9)]

theorem create_second_fails_already_exists_witness :
    create ['m'] 1 (create ['m'] 0 [] c1d1).2.1 c1d2 =
      (.error (mkErr .RECORD_ALREADY_EXISTS), (create ['m'] 0 [] c1d1).2.1, []) :=
  create_second_fails_already_exists ['m'] ['u', '1'] 0 1 [] c1d1 c1d2 rfl rfl rfl

/-- C2: updating an existing record shallow-merges the caller's fields on
top of it, forces `id` back to the target id even if the payload supplies a
different one, forces `createdAt` to the existing value even if the payload
supplies one, stamps `updatedAt` with the update time, leaves every field
not mentioned in the payload unchanged, and writes the merged record as a
full overwrite at the same key. -/
theorem update_merge_semantics (m X : Str) (now : Nat) (st : Storage) (d ex : Rec)
    (hX : X ≠ []) (hex : getRecord m st X = .ok (some ex))
    (hnd : (assocKeys d).Nodup) :
    ∃ res,
      update m now st X d =
        (.ok res, Storage.upload st (genKey m X) (encode res),
          [Effect.put (genKey m X) (encode res)]) ∧
      getFieldD res idK = .s X ∧
      getFieldD res cAtK = getFieldD ex cAtK ∧
      getFieldD res uAtK = .date now ∧
      (∀ k v, k ≠ idK → k ≠ cAtK → k ≠ uAtK → getAssoc d k = some v →
        getFieldD res k = v) ∧
      (∀ k, k ≠ idK → k ≠ cAtK → k ≠ uAtK → k ∉ assocKeys d →
        getFieldD res k = getFieldD ex k) := by
  have hic : idK ≠ cAtK := by decide
  have hiu : idK ≠ uAtK := by decide
  have hcu : cAtK ≠ uAtK := by decide
  refine ⟨setAssoc (setAssoc (setAssoc (mergeRecs ex d) idK (.s X))
    cAtK (getFieldD ex cAtK)) uAtK (.date now), ?_, ?_, ?_, ?_, ?_, ?_⟩
  · rw [update, if_neg hX, hex]
  · rw [getFieldD, getAssoc_setAssoc_ne _ _ _ _ (Ne.symm hiu),
      getAssoc_setAssoc_ne _ _ _ _ (Ne.symm hic), getAssoc_setAssoc_self]
    rfl
  · rw [getFieldD, getAssoc_setAssoc_ne _ _ _ _ (Ne.symm hcu), getAssoc_setAssoc_self]
    rfl
  · rw [getFieldD, getAssoc_setAssoc_self]
    rfl
  · intro k v hki hkc hku hkd
    rw [getFieldD, getAssoc_setAssoc_ne _ _ _ _ (Ne.symm hku),
      getAssoc_setAssoc_ne _ _ _ _ (Ne.symm hkc),
      getAssoc_setAssoc_ne _ _ _ _ (Ne.symm hki),
      getAssoc_mergeRecs_mem d ex k v hnd hkd]
    rfl
  · intro k hki hkc hku hkd
    rw [getFieldD, getAssoc_setAssoc_ne _ _ _ _ (Ne.symm hku),
      getAssoc_setAssoc_ne _ _ _ _ (Ne.symm hkc),
      getAssoc_setAssoc_ne _ _ _ _ (Ne.symm hki),
      getAssoc_mergeRecs_not_mem d ex k hkd]
    rfl

def c2rec : Rec := [(idK, .s ['u']), (cAtK, .date 3), (uAtK, .date 3), (['n'], .s ['A'])]

def c2st : Storage := [(genKey ['m'] ['u'], encode c2rec)]

def c2d : Rec := [(['n'], .s ['B']), (idK, .s ['z']), (cAtK, .date 9)]

theorem update_merge_semantics_witness :
    ∃ res,
      update ['m'] 7 c2st ['u'] c2d =
        (.ok res, Storage.upload c2st (genKey ['m'] ['u']) (encode res),
          [Effect.put (genKey ['m'] ['u']) (encode res)]) ∧
      getFieldD res idK = .s ['u'] ∧
      getFieldD res cAtK = getFieldD c2rec cAtK ∧
      getFieldD res uAtK = .date 7 ∧
      (∀ k v, k ≠ idK → k ≠ cAtK → k ≠ uAtK → getAssoc c2d k = some v →
        getFieldD res k = v) ∧
      (∀ k, k ≠ idK → k ≠ cAtK → k ≠ uAtK → k ∉ assocKeys c2d →
        getFieldD res k = getFieldD c2rec k) :=
  update_merge_semantics ['m'] ['u'] 7 c2st c2d c2rec (by decide) rfl (by decide)

/-- C3: for a non-empty id absent from storage, `findOne` returns an
explicit non-error absent result, while `update` and `delete` both fail
with `RECORD_NOT_FOUND`, leave the storage state unchanged and issue no
write or delete effect. -/
theorem absent_id_symmetry (m id : Str) (now : Nat) (st : Storage) (d : Rec)
    (hid : id ≠ []) (habs : Storage.download st (genKey m id) = none) :
    findOne m st id = .ok none ∧
    update m now st id d = (.error (mkErr .RECORD_NOT_FOUND), st, []) ∧
    delete m st id = (.error (mkErr .RECORD_NOT_FOUND), st, []) := by
  have hget : getRecord m st id = .ok none := by
    rw [getRecord, habs]
  refine ⟨?_, ?_, ?_⟩
  · rw [findOne, if_neg hid, hget]
  · rw [update, if_neg hid, hget]
  · rw [delete, if_neg hid, hget]

theorem absent_id_symmetry_witness :
    findOne ['m'] [] ['u'] = .ok none ∧
    update ['m'] 5 [] ['u'] [(['n'], .s ['B'])] =
      (.error (mkErr .RECORD_NOT_FOUND), [], []) ∧
    delete ['m'] [] ['u'] = (.error (mkErr .RECORD_NOT_FOUND), [], []) :=
  absent_id_symmetry ['m'] ['u'] 5 [] [(['n'], .s ['B'])] (by decide) rfl

def c4rex : Rec :=
  [(idK, .s ['a']), (cAtK, .date 0), (uAtK, .date 0), (['x'], .date 5)]

/-- C4 counterexample: a valid record carrying a timestamp value in a
non-reserved caller field does not survive the codec round trip — the field
comes back as the rendered string, because decode revives only the two
reserved timestamp fields. -/
theorem codec_roundtrip_counterexample :
    parseRecord (encode c4rex) =
      .ok [(idK, .s ['a']), (cAtK, .date 0), (uAtK, .date 0),
        (['x'], .s (dateToISO 5))] ∧
    ([(idK, .s ['a']), (cAtK, .date 0), (uAtK, .date 0),
      (['x'], .s (dateToISO 5))] : Rec) ≠ c4rex :=
  ⟨by decide, by decide⟩

/-- C4 (amended): for every well-formed record — no duplicated field names,
no `undefined` fields, and timestamp values only (and exactly) at
`createdAt` and `updatedAt` — decoding the bytes produced by encoding it
yields the record again for all fields, the two reserved timestamp fields
surviving as equivalent instants and all other fields passing through
unchanged. -/
theorem codec_roundtrip (r : Rec) (h : WellFormed r) :
    parseRecord (encode r) = .ok r :=
  parseRecord_encode_wf r h

def c4wf : Rec :=
  [(idK, .s ['a']), (cAtK, .date 2), (uAtK, .date 4), (['x'], .b true)]

theorem codec_roundtrip_witness :
    WellFormed c4wf ∧ parseRecord (encode c4wf) = .ok c4wf :=
  ⟨by decide, codec_roundtrip c4wf (by decide)⟩

/-- C5: with a `where` clause, exactly the loaded records whose every listed
field strictly equals the given value are retained, then `offset` is applied
before `limit`; the result is a valid non-error sequence, every returned
record satisfies the whole clause, and at most `limit` records are
returned. -/
theorem findMany_filter_then_paginate (m : Str) (st : Storage)
    (w : List (Str × JSVal)) (l o : Nat) (recs : List Rec)
    (hload : loadLoop m st (m ++ ['/'])
      ((Storage.listKeys st (m ++ ['/'])).filter fun k => dotJson.isSuffixOf k) =
        .ok recs) :
    findMany m st ⟨some w, some l, some o⟩ =
      .ok (((recs.filter fun r => matchesWhere w r).drop o).take l) ∧
    (∀ r ∈ ((recs.filter fun r => matchesWhere w r).drop o).take l,
      ∀ kv ∈ w, jsEq (getFieldD r kv.1) kv.2 = true) ∧
    (((recs.filter fun r => matchesWhere w r).drop o).take l).length ≤ l := by
  refine ⟨?_, ?_, ?_⟩
  · simp only [findMany, hload]
    rfl
  · intro r hr kv hkv
    have hr1 : r ∈ (recs.filter fun r => matchesWhere w r).drop o :=
      List.take_subset _ _ hr
    have hr2 : r ∈ recs.filter fun r => matchesWhere w r :=
      List.drop_subset _ _ hr1
    have hmw : matchesWhere w r = true := (List.mem_filter.mp hr2).2
    rw [matchesWhere] at hmw
    simpa using List.all_eq_true.mp hmw kv hkv
  · exact List.length_take_le _ _

def c5recA : Rec :=
  [(idK, .s ['a']), (cAtK, .date 0), (uAtK, .date 0), (['f'], .b true)]

def c5recB : Rec :=
  [(idK, .s ['b']), (cAtK, .date 0), (uAtK, .date 0), (['f'], .b false)]

def c5st : Storage :=
  [(genKey ['m'] ['a'], encode c5recA), (genKey ['m'] ['b'], encode c5recB)]

def loadRes : List Rec := [c5recA, c5recB]

theorem findMany_filter_then_paginate_witness :
    findMany ['m'] c5st ⟨some [(['f'], .b true)], some 5, some 0⟩ =
      .ok ((((loadRes.filter fun r => matchesWhere [(['f'], .b true)] r).drop 0).take 5)) ∧
    (∀ r ∈ ((loadRes.filter fun r => matchesWhere [(['f'], .b true)] r).drop 0).take 5,
      ∀ kv ∈ [((['f'] : Str), JSVal.b true)], jsEq (getFieldD r kv.1) kv.2 = true) ∧
    (((loadRes.filter fun r => matchesWhere [(['f'], .b true)] r).drop 0).take 5).length ≤ 5 :=
  findMany_filter_then_paginate ['m'] c5st [(['f'], .b true)] 5 0 loadRes rfl

/-- C8 (amended): when the stored bytes at a record's key are non-empty and
not valid JSON, every operation that reads and decodes them — `findOne`,
and the existence or current-state reads of `create`, `update` and
`delete` — fails with the `STORAGE_ERROR` kind: the implementation folds
the parse failure into `StorageError`, and its error taxonomy has no
separate `CorruptData` kind.  A stored empty byte body, though not valid
JSON either, is caught by the falsy-bytes guard and treated as an absent
record instead: `findOne` reports absence, `update` and `delete` fail with
`RECORD_NOT_FOUND`, and `create` proceeds to write. -/
theorem corrupt_bytes_surface_storage_error (m id raw : Str) (now : Nat)
    (st : Storage) (d d2 : Rec) (hid : id ≠ [])
    (hcor : Storage.download st (genKey m id) = some (.corrupt raw))
    (hd2 : getAssoc d2 idK = some (JSVal.s id)) :
    (raw ≠ [] →
      findOne m st id = .error (mkErr .STORAGE_ERROR) ∧
      update m now st id d = (.error (mkErr .STORAGE_ERROR), st, []) ∧
      delete m st id = (.error (mkErr .STORAGE_ERROR), st, []) ∧
      create m now st d2 = (.error (mkErr .STORAGE_ERROR), st, [])) ∧
    (raw = [] →
      findOne m st id = .ok none ∧
      update m now st id d = (.error (mkErr .RECORD_NOT_FOUND), st, []) ∧
      delete m st id = (.error (mkErr .RECORD_NOT_FOUND), st, []) ∧
      ∃ r', create m now st d2 =
        (.ok r', Storage.upload st (genKey m id) (encode r'),
          [.put (genKey m id) (encode r')])) := by
  constructor
  · intro hraw
    have hne : raw.isEmpty = false := by
      cases raw
      · exact absurd rfl hraw
      · rfl
    have hget : getRecord m st id = .error (mkErr .STORAGE_ERROR) := by
      simp only [getRecord, hcor, Bytes.isFalsy, hne]
      rfl
    refine ⟨?_, ?_, ?_, ?_⟩
    · rw [findOne, if_neg hid, hget]
    · rw [update, if_neg hid, hget]
    · rw [delete, if_neg hid, hget]
    · simp only [create, hd2]
      rw [if_neg hid, hget]
  · intro hraw
    subst hraw
    have hget : getRecord m st id = .ok none := by
      simp only [getRecord, hcor]
      rfl
    refine ⟨?_, ?_, ?_, ?_⟩
    · rw [findOne, if_neg hid, hget]
    · rw [update, if_neg hid, hget]
    · rw [delete, if_neg hid, hget]
    · refine ⟨setAssoc (setAssoc d2 cAtK (.date now)) uAtK (.date now), ?_⟩
      simp only [create, hd2]
      rw [if_neg hid, hget]

def c8st : Storage := [(genKey ['m'] ['u'], .corrupt ['z'])]

/-- C8 counterexample: on bytes that fail to parse, `findOne` surfaces the
`STORAGE_ERROR` kind — there is no distinct `CorruptData` kind in the
implementation's error taxonomy. -/
theorem corrupt_bytes_not_distinct_kind :
    findOne ['m'] c8st ['u'] = .error (mkErr .STORAGE_ERROR) := by decide

def c6rec : Rec :=
  [(idK, .s ['a', '.', 'j', 's', 'o', 'n', 'b']), (cAtK, .date 0), (uAtK, .date 0)]

def c6st : Storage :=
  [(genKey ['m'] ['a', '.', 'j', 's', 'o', 'n', 'b'], encode c6rec)]

/-- C6 counterexample: a record whose id contains the substring `.json` is
stored at its proper key, yet `findMany` returns the empty list — id
recovery removes the first occurrence of `.json` from the key, mangling the
id, and the resulting read miss is silently skipped. -/
theorem findMany_misses_dotjson_id :
    Storage.download c6st (genKey ['m'] ['a', '.', 'j', 's', 'o', 'n', 'b']) =
      some (encode c6rec) ∧
    findMany ['m'] c6st ⟨none, none, none⟩ = .ok [] :=
  ⟨by decide, by decide⟩

/-- C6 (amended): over a storage namespace holding exactly the records
written by this system for ids free of the substring `.json`, `findMany`
without options lists the keys under the model's prefix, keeps the `.json`
ones, reads and decodes each, and yields exactly the records of the extant
ids; and any listed key whose read comes back absent is silently skipped,
not reported as an error. -/
theorem findMany_lists_extant_records (m : Str) (entries : List (Str × Rec))
    (hnd : (entries.map Prod.fst).Nodup)
    (hnj : ∀ e ∈ entries, ¬ dotJson <:+: e.1)
    (hwf : ∀ e ∈ entries, WellFormed e.2) :
    findMany m (entries.map fun e => (genKey m e.1, encode e.2)) ⟨none, none, none⟩ =
      .ok (entries.map Prod.snd) ∧
    (∀ (st2 : Storage) (key : Str) (rest : List Str),
      getRecord m st2 (replaceFirst (replaceFirst key (m ++ ['/']) []) dotJson []) =
        .ok none →
      loadLoop m st2 (m ++ ['/']) (key :: rest) = loadLoop m st2 (m ++ ['/']) rest) := by
  constructor
  · have hg : ∀ e ∈ entries,
        getRecord m (entries.map fun e => (genKey m e.1, encode e.2)) e.1 =
          .ok (some e.2) := by
      intro e he
      obtain ⟨id, r⟩ := e
      have hdl := download_entries m entries hnd id r he
      simp only [getRecord, Storage.download, hdl,
        parseRecord_encode_wf r (hwf ⟨id, r⟩ he)]
      rfl
    simp only [findMany, listKeys_entries, jsonKeys_entries,
      loadLoop_entries m _ entries hnj hg]
    rfl
  · intro st2 key rest hmiss
    simp only [loadLoop, hmiss]
    cases hl : loadLoop m st2 (m ++ ['/']) rest with
    | error e => rfl
    | ok more => rfl

def c6goodRec : Rec := [(idK, .s ['g']), (cAtK, .date 1), (uAtK, .date 1)]

theorem findMany_lists_extant_records_witness :
    findMany ['m'] ([(['g'], c6goodRec)].map fun e => (genKey ['m'] e.1, encode e.2))
        ⟨none, none, none⟩ =
      .ok ([(['g'], c6goodRec)].map Prod.snd) ∧
    (∀ (st2 : Storage) (key : Str) (rest : List Str),
      getRecord ['m'] st2 (replaceFirst (replaceFirst key (['m'] ++ ['/']) [])
        dotJson []) = .ok none →
      loadLoop ['m'] st2 (['m'] ++ ['/']) (key :: rest) =
        loadLoop ['m'] st2 (['m'] ++ ['/']) rest) :=
  findMany_lists_extant_records ['m'] [(['g'], c6goodRec)] (by decide) (by decide)
    (by decide)

/-- C7: `createWithValidation` runs the schema validator first — on failure
it fails with `INVALID_DATA` carrying the validator's structured list of
(field path, message) issues, leaves the storage state unchanged and issues
no write, so a subsequent `findOne` for an absent id still reports absence —
and on success it delegates to `create` with the validated data. -/
theorem createWithValidation_gate (sch : Schema) (m : Str) (now : Nat)
    (st : Storage) (data : Rec) :
    (∀ issues, sch.validate data = .error issues →
      createWithValidation sch m now st data =
        (.error ⟨.INVALID_DATA, issues⟩, st, [])) ∧
    (∀ vdata, sch.validate data = .ok vdata →
      createWithValidation sch m now st data = create m now st vdata) ∧
    (∀ issues id, sch.validate data = .error issues → id ≠ [] →
      Storage.download st (genKey m id) = none →
      findOne m (createWithValidation sch m now st data).2.1 id = .ok none) := by
  refine ⟨?_, ?_, ?_⟩
  · intro issues hval
    simp only [createWithValidation, hval]
  · intro vdata hval
    simp only [createWithValidation, hval]
  · intro issues id hval hid habs
    simp only [createWithValidation, hval]
    rw [findOne, if_neg hid, getRecord, habs]

def agePath : List Str := [['a', 'g', 'e']]

def gateSchema : Schema :=
  ⟨fun r =>
    match getAssoc r ['a', 'g', 'e'] with
    | some (.i v) =>
        if v < 18 then .error [(agePath, ['l', 'o', 'w'])] else .ok r
    | _ => .error [(agePath, ['r', 'e', 'q'])]⟩

def c7fail : Rec := [(idK, .s ['u']), (['a', 'g', 'e'], .i 10)]

def c7pass : Rec := [(idK, .s ['u']), (['a', 'g', 'e'], .i 30)]

theorem createWithValidation_gate_witness :
    createWithValidation gateSchema ['m'] 0 [] c7fail =
      (.error ⟨.INVALID_DATA, [(agePath, ['l', 'o', 'w'])]⟩, [], []) ∧
    createWithValidation gateSchema ['m'] 0 [] c7pass = create ['m'] 0 [] c7pass ∧
    findOne ['m'] (createWithValidation gateSchema ['m'] 0 [] c7fail).2.1 ['u'] =
      .ok none :=
  ⟨(createWithValidation_gate gateSchema ['m'] 0 [] c7fail).1 _ rfl,
   (createWithValidation_gate gateSchema ['m'] 0 [] c7pass).2.1 c7pass rfl,
   (createWithValidation_gate gateSchema ['m'] 0 [] c7fail).2.2 _ ['u'] rfl
     (by decide) rfl⟩

def c9schema : Schema := ⟨fun r => .ok r⟩

def c9sd : SchemaDefinition := ⟨c9schema⟩

/-- C9 counterexample: the plain-model and schema-model caches are one map —
after `schemaModel("u", sd)` caches its instance under the key
`"u" ++ "_schema"`, `model("u_schema")` returns that very schema-model
instance, so the caches are not keyed separately. -/
theorem registry_caches_collide :
    (Registry.model (Registry.schemaModel Registry.empty ['u'] c9sd).2
      (['u'] ++ schemaSfx)).1 =
    (Registry.schemaModel Registry.empty ['u'] c9sd).1 := rfl

/-- C9 (amended): repeated `model(n)` calls return the identical cached
instance, and repeated `schemaModel(n, sd)` calls likewise; but both caches
live in a single map, schema models keyed under `n ++ "_schema"`, so the
claimed separation only holds when no plain model name equals another
name ++ "_schema": under that side condition a plain-model request never
returns a schema-model-cached instance and vice versa. -/
theorem registry_caching (R : Registry) (n mname : Str) (sd : SchemaDefinition) :
    (Registry.model (Registry.model R n).2 n = Registry.model R n) ∧
    (Registry.schemaModel (Registry.schemaModel R n sd).2 n sd =
      Registry.schemaModel R n sd) ∧
    (mname ≠ n ++ schemaSfx →
      (Registry.model (Registry.schemaModel Registry.empty n sd).2 mname).1 =
        .plain mname ∧
      (Registry.model (Registry.schemaModel Registry.empty n sd).2 mname).1 ≠
        (Registry.schemaModel Registry.empty n sd).1) ∧
    (n ++ schemaSfx ≠ mname →
      (Registry.schemaModel (Registry.model Registry.empty mname).2 n sd).1 =
        .schemaInst n sd.schema ∧
      (Registry.schemaModel (Registry.model Registry.empty mname).2 n sd).1 ≠
        (Registry.model Registry.empty mname).1) := by
  refine ⟨?_, ?_, ?_, ?_⟩
  · cases hm : getAssoc R.models n with
    | some inst => simp only [Registry.model, hm]
    | none => simp only [Registry.model, hm, getAssoc_setAssoc_self]
  · cases hm : getAssoc R.models (n ++ schemaSfx) with
    | some inst => simp only [Registry.schemaModel, hm]
    | none => simp only [Registry.schemaModel, hm, getAssoc_setAssoc_self]
  · intro hne
    simp only [Registry.schemaModel, Registry.empty, Registry.model,
      getAssoc_nil, setAssoc_nil, getAssoc_cons, if_neg (Ne.symm hne)]
    exact ⟨trivial, fun hc => ModelInst.noConfusion hc⟩
  · intro hne
    simp only [Registry.model, Registry.empty, Registry.schemaModel,
      getAssoc_nil, setAssoc_nil, getAssoc_cons, if_neg (Ne.symm hne)]
    exact ⟨trivial, fun hc => ModelInst.noConfusion hc⟩

theorem registry_caching_witness :
    (Registry.model (Registry.model Registry.empty ['u'] ).2 ['u'] =
      Registry.model Registry.empty ['u'] ) ∧
    (Registry.schemaModel (Registry.schemaModel Registry.empty ['u'] c9sd).2
        ['u'] c9sd =
      Registry.schemaModel Registry.empty ['u'] c9sd) ∧
    ((Registry.model (Registry.schemaModel Registry.empty ['u'] c9sd).2 ['t']).1 =
        .plain ['t'] ∧
      (Registry.model (Registry.schemaModel Registry.empty ['u'] c9sd).2 ['t']).1 ≠
        (Registry.schemaModel Registry.empty ['u'] c9sd).1) ∧
    ((Registry.schemaModel (Registry.model Registry.empty ['t']).2 ['u'] c9sd).1 =
        .schemaInst ['u'] c9sd.schema ∧
      (Registry.schemaModel (Registry.model Registry.empty ['t']).2 ['u'] c9sd).1 ≠
        (Registry.model Registry.empty ['t']).1) :=
  ⟨(registry_caching Registry.empty ['u'] ['t'] c9sd).1,
   (registry_caching Registry.empty ['u'] ['t'] c9sd).2.1,
   (registry_caching Registry.empty ['u'] ['t'] c9sd).2.2.1 (by decide),
   (registry_caching Registry.empty ['u'] ['t'] c9sd).2.2.2 (by decide)⟩

/-- C10: when no schema model is cached yet for `n`, `schemaModel(n, sd2)`
called after `schemaModel(n, sd1)` returns the instance constructed with
`sd1` — the second schema definition is silently ignored — and `getSchema`
on the returned instance is `sd1`'s schema; when the two schemas differ, it
is not `sd2`'s. -/
theorem schemaModel_first_schema_wins (R : Registry) (n : Str)
    (sd1 sd2 : SchemaDefinition)
    (h : getAssoc R.models (n ++ schemaSfx) = none) :
    Registry.schemaModel (Registry.schemaModel R n sd1).2 n sd2 =
      Registry.schemaModel R n sd1 ∧
    (Registry.schemaModel R n sd1).1 = .schemaInst n sd1.schema ∧
    getSchema (Registry.schemaModel (Registry.schemaModel R n sd1).2 n sd2).1 =
      some sd1.schema ∧
    (sd1.schema ≠ sd2.schema →
      getSchema (Registry.schemaModel (Registry.schemaModel R n sd1).2 n sd2).1 ≠
        some sd2.schema) := by
  have hstep : Registry.schemaModel (Registry.schemaModel R n sd1).2 n sd2 =
      Registry.schemaModel R n sd1 := by
    simp only [Registry.schemaModel, h, getAssoc_setAssoc_self]
  refine ⟨hstep, ?_, ?_, ?_⟩
  · simp only [Registry.schemaModel, h]
  · rw [hstep]
    simp only [Registry.schemaModel, h]
    rfl
  · intro hne
    rw [hstep]
    simp only [Registry.schemaModel, h]
    intro hc
    exact hne (Option.some.inj hc)

def c10sdB : SchemaDefinition := ⟨⟨fun _ => .error []⟩⟩

theorem schemaModel_first_schema_wins_witness :
    (Registry.schemaModel (Registry.schemaModel Registry.empty ['u'] c9sd).2
        ['u'] c10sdB =
      Registry.schemaModel Registry.empty ['u'] c9sd) ∧
    (Registry.schemaModel Registry.empty ['u'] c9sd).1 =
      .schemaInst ['u'] c9sd.schema ∧
    getSchema (Registry.schemaModel (Registry.schemaModel Registry.empty ['u']
        c9sd).2 ['u'] c10sdB).1 = some c9sd.schema ∧
    (c9sd.schema ≠ c10sdB.schema →
      getSchema (Registry.schemaModel (Registry.schemaModel Registry.empty ['u']
        c9sd).2 ['u'] c10sdB).1 ≠ some c10sdB.schema) :=
  schemaModel_first_schema_wins Registry.empty ['u'] c9sd c10sdB rfl

def c8stEmpty : Storage := [(genKey ['m'] ['u'], .corrupt [])]

theorem corrupt_bytes_surface_storage_error_witness :
    (findOne ['m'] c8st ['u'] = .error (mkErr .STORAGE_ERROR) ∧
      update ['m'] 0 c8st ['u'] [(['n'], .s ['B'])] =
        (.error (mkErr .STORAGE_ERROR), c8st, []) ∧
      delete ['m'] c8st ['u'] = (.error (mkErr .STORAGE_ERROR), c8st, []) ∧
      create ['m'] 0 c8st [(idK, .s ['u'])] =
        (.error (mkErr .STORAGE_ERROR), c8st, [])) ∧
    (findOne ['m'] c8stEmpty ['u'] = .ok none ∧
      update ['m'] 0 c8stEmpty ['u'] [(['n'], .s ['B'])] =
        (.error (mkErr .RECORD_NOT_FOUND), c8stEmpty, []) ∧
      delete ['m'] c8stEmpty ['u'] =
        (.error (mkErr .RECORD_NOT_FOUND), c8stEmpty, []) ∧
      ∃ r', create ['m'] 0 c8stEmpty [(idK, .s ['u'])] =
        (.ok r', Storage.upload c8stEmpty (genKey ['m'] ['u']) (encode r'),
          [.put (genKey ['m'] ['u']) (encode r')])) :=
  ⟨(corrupt_bytes_surface_storage_error ['m'] ['u'] ['z'] 0 c8st
      [(['n'], .s ['B'])] [(idK, .s ['u'])] (by decide) rfl rfl).1 (by decide),
   (corrupt_bytes_surface_storage_error ['m'] ['u'] [] 0 c8stEmpty
      [(['n'], .s ['B'])] [(idK, .s ['u'])] (by decide) rfl rfl).2 rfl⟩
